import Mathlib

/-!
Verification of the epoch trainer of the DSC deep-learning workshop notebook
(`DSC_Workshop_Neural_Nets.ipynb`).

The notebook's own logic consists of three pieces, embedded here over `ℚ`:

* `train` — one training pass over a dataloader: per batch, forward pass,
  loss, `optimizer.zero_grad()`, `loss.backward()`, `optimizer.step()` (SGD),
  running-loss accumulation; returns the average per-batch loss.
* `test` — one evaluation pass: per batch, forward pass, loss and
  correct-prediction count (argmax of the scores against the label), under
  `torch.no_grad()`; returns accuracy in percent and the average loss.
* the epoch loop — `for epoch in range(epochs)`: `train`, `test`, append the
  epoch's losses to `train_losses` / `val_losses`, print progress every fifth
  epoch, update `best_score = max(best_score, val_correct)`, and print the
  best score once at the end.

The numeric work the notebook delegates to the ML framework (forward pass,
loss value, reverse-mode gradient) is abstracted as a `Framework` record of
functions; the notebook's own control flow and bookkeeping are modelled
exactly.  Python's `ZeroDivisionError` is modelled by returning `none`.
-/

namespace DSC

/-- A batch yielded by a dataloader: a list of input vectors paired with the
integer class labels, mirroring the `(X, y)` pairs of the notebook. -/
structure Batch where
  inputs : List (List ℚ)
  labels : List ℕ
deriving DecidableEq

/-- Mutable model state: the ordered parameter vector, the accumulated
gradient buffers (`.grad`), and the train/eval mode flag set by
`model.train()` / `model.eval()`. -/
structure Model where
  params : List ℚ
  grads : List ℚ
  training : Bool
deriving DecidableEq

/-- The external ML framework's numeric services, consumed but not
reimplemented by the notebook: the model's forward pass (as a function of the
current parameters), the loss function, and reverse-mode differentiation of
the loss at the current parameters for a batch. -/
structure Framework where
  forward : List ℚ → List (List ℚ) → List (List ℚ)
  loss : List (List ℚ) → List ℕ → ℚ
  grad : List ℚ → Batch → List ℚ

/-- The learning rate configured in the notebook:
`torch.optim.SGD(model.parameters(), lr=0.005)`. -/
def learningRate : ℚ := 5 / 1000

/-- `argmaxAux xs i bi bv` scans `xs` (whose head has index `i`) keeping the
index `bi` and value `bv` of the best entry seen so far; a later entry
replaces the current best only if strictly greater, which yields the
first-occurrence tie-break of `torch.argmax`. -/
def argmaxAux : List ℚ → ℕ → ℕ → ℚ → ℕ
  | [], _, bi, _ => bi
  | x :: xs, i, bi, bv => if bv < x then argmaxAux xs (i + 1) i x else argmaxAux xs (i + 1) bi bv

/-- Index of the maximum score in a prediction vector (`preds.argmax(1)` for
one row): the first index attaining the maximum; `0` on the empty list. -/
def argmaxIdx : List ℚ → ℕ
  | [] => 0
  | x :: xs => argmaxAux xs 1 0 x

/-- `(preds.argmax(1) == y).type(torch.float).sum().item()`: the number of
samples in the batch whose argmax prediction equals the label, as a sum of
`0`/`1` indicators. -/
def countCorrect (preds : List (List ℚ)) (labels : List ℕ) : ℚ :=
  ((preds.zip labels).map fun py => if argmaxIdx py.1 = py.2 then (1 : ℚ) else 0).sum

/-- One in-place SGD step without momentum: `p := p - lr * p.grad`,
elementwise over the parameter vector (`optimizer.step()`). -/
def sgdStep (lr : ℚ) (params grads : List ℚ) : List ℚ :=
  params.zipWith (fun p g => p - lr * g) grads

/-- The body of the training loop for one batch, in the notebook's order:
1. `pred = model(X)` and `loss = loss_fn(pred, y)`;
2. `optimizer.zero_grad()` — the gradient buffers are overwritten with zeros;
3. `loss.backward()` — the new gradients accumulate into the buffers;
4. `optimizer.step()` — SGD update of the parameters in place.
Returns the updated model and the scalar loss (`loss.item()`). -/
def trainStep (fw : Framework) (lr : ℚ) (m : Model) (b : Batch) : Model × ℚ :=
  let pred := fw.forward m.params b.inputs
  let loss := fw.loss pred b.labels
  let m := { m with grads := m.grads.map fun _ => 0 }
  let m := { m with grads := m.grads.zipWith (· + ·) (fw.grad m.params b) }
  let m := { m with params := sgdStep lr m.params m.grads }
  (m, loss)

/-- The notebook's `train(dataloader, model, loss_fn, optimizer)`:
`model.train()`, fold `trainStep` over every batch accumulating
`running_loss`, then return `running_loss / num_batches` — which raises
`ZeroDivisionError` (here: `none`) when the loader yields no batches.
The updated model is returned to make the in-place mutation explicit. -/
def train (dataloader : List Batch) (model : Model) (fw : Framework) (lr : ℚ) :
    Option (Model × ℚ) :=
  let num_batches := dataloader.length
  let model := { model with training := true }
  let res := dataloader.foldl
    (fun (acc : Model × ℚ) b =>
      let r := trainStep fw lr acc.1 b
      (r.1, acc.2 + r.2))
    (model, 0)
  if num_batches = 0 then none
  else some (res.1, res.2 / (num_batches : ℚ))

/-- The per-batch losses produced by `train`'s fold, in order: the loss of
batch `i` is computed with the parameters as they stand after `i` previous
training steps. -/
def trainLossTrace (fw : Framework) (lr : ℚ) : List Batch → Model → List ℚ
  | [], _ => []
  | b :: bs, m => (trainStep fw lr m b).2 :: trainLossTrace fw lr bs (trainStep fw lr m b).1

/-- The notebook's `test(dataloader, model, loss_fn)`:
`size = len(dataloader.dataset)`, `model.eval()`, then under
`torch.no_grad()` accumulate the loss and the correct count over every batch,
and return `(correct / size * 100, running_loss / num_batches)` — raising
`ZeroDivisionError` (here: `none`) on an empty loader or empty dataset.
No gradient is computed and no optimizer runs, so parameters and gradient
buffers are untouched; only the mode flag changes. -/
def test (dataloader : List Batch) (model : Model) (fw : Framework) :
    Option (Model × ℚ × ℚ) :=
  let size := (dataloader.map fun b => b.labels.length).sum
  let num_batches := dataloader.length
  let model := { model with training := false }
  let res := dataloader.foldl
    (fun (acc : ℚ × ℚ) b =>
      let preds := fw.forward model.params b.inputs
      (acc.1 + fw.loss preds b.labels, acc.2 + countCorrect preds b.labels))
    (0, 0)
  if num_batches = 0 ∨ size = 0 then none
  else some (model, res.2 / (size : ℚ) * 100, res.1 / (num_batches : ℚ))

/-- What the epoch loop prints: a progress line every fifth epoch (carrying
the 1-based epoch number, train loss, validation loss and accuracy), and the
final best-score line. -/
inductive OutputEvent where
  | progress (epoch : ℕ) (train_loss val_loss acc : ℚ)
  | bestScore (score : ℚ)
deriving DecidableEq

/-- The state threaded through the epoch loop: the model, `best_score`, the
two loss-history lists, and the output printed so far. -/
structure LoopState where
  model : Model
  best_score : ℚ
  train_losses : List ℚ
  val_losses : List ℚ
  output : List OutputEvent
deriving DecidableEq

/-- A training run's fixed data: the two dataloaders, the framework, and the
learning rate. -/
structure Config where
  trainData : List Batch
  valData : List Batch
  fw : Framework
  lr : ℚ

/-- One iteration of the epoch loop, in the notebook's order:
`train_loss = train(...)`; `val_correct, val_loss = test(...)`;
append to `train_losses` and `val_losses`; `if epoch % 5 == 0: print(...)`
(with the 1-based epoch number `epoch+1`); then
`best_score = max(best_score, val_correct)`. -/
def epochBody (cfg : Config) (epoch : ℕ) (s : LoopState) : Option LoopState :=
  match train cfg.trainData s.model cfg.fw cfg.lr with
  | none => none
  | some (m1, train_loss) =>
    match test cfg.valData m1 cfg.fw with
    | none => none
    | some (_m2, val_correct, val_loss) =>
      let s := { s with
        model := _m2
        train_losses := s.train_losses ++ [train_loss]
        val_losses := s.val_losses ++ [val_loss] }
      let s := if epoch % 5 = 0
        then { s with
          output := s.output ++ [.progress (epoch + 1) train_loss val_loss val_correct] }
        else s
      some { s with best_score := max s.best_score val_correct }

/-- `runFrom cfg e n s` runs `n` iterations of the epoch loop starting at
epoch index `e` from state `s`. -/
def runFrom (cfg : Config) : ℕ → ℕ → LoopState → Option LoopState
  | _, 0, s => some s
  | e, n + 1, s => (epochBody cfg e s).bind (runFrom cfg (e + 1) n)

/-- The loop's initial state: `best_score = 0.`, `train_losses = []`,
`val_losses = []`, nothing printed. -/
def initState (m : Model) : LoopState := ⟨m, 0, [], [], []⟩

/-- `for epoch in range(epochs)` from the initial state. -/
def runEpochs (cfg : Config) (m : Model) (epochs : ℕ) : Option LoopState :=
  runFrom cfg 0 epochs (initState m)

/-- The whole cell: the epoch loop followed by the final
`print(f'Best score: ...')`. -/
def runLoop (cfg : Config) (m : Model) (epochs : ℕ) : Option LoopState :=
  (runEpochs cfg m epochs).map fun s =>
    { s with output := s.output ++ [.bestScore s.best_score] }

/-- The per-epoch metrics record `(train loss, val loss, val accuracy)`
produced by one epoch on model `m`, with the model that results. -/
def epochMetrics (cfg : Config) (m : Model) : Option ((ℚ × ℚ × ℚ) × Model) :=
  match train cfg.trainData m cfg.fw cfg.lr with
  | none => none
  | some (m1, train_loss) =>
    match test cfg.valData m1 cfg.fw with
    | none => none
    | some (m2, val_correct, val_loss) => some ((train_loss, val_loss, val_correct), m2)

/-- The list of per-epoch metrics records over `n` epochs starting from
model `m`, with the final model. -/
def metricsTrace (cfg : Config) : ℕ → Model → Option (List (ℚ × ℚ × ℚ) × Model)
  | 0, m => some ([], m)
  | n + 1, m => (epochMetrics cfg m).bind fun tm =>
      (metricsTrace cfg n tm.2).map fun r => (tm.1 :: r.1, r.2)

/-- The progress lines the loop prints for the metrics records `ts` when the
first record belongs to epoch index `e`. -/
def progressEvents : ℕ → List (ℚ × ℚ × ℚ) → List OutputEvent
  | _, [] => []
  | e, t :: ts =>
      (if e % 5 = 0 then [OutputEvent.progress (e + 1) t.1 t.2.1 t.2.2] else [])
        ++ progressEvents (e + 1) ts

/-- `ceil(n / bs)`: the number of batches a `DataLoader` with `drop_last`
left at its default `False` yields for a dataset of `n` samples. -/
def numBatchesOf (n bs : ℕ) : ℕ := (n + bs - 1) / bs

/-- A dataset sample: an input vector with its label. -/
abbrev Sample : Type := List ℚ × ℕ

/-- Split a dataset into consecutive chunks of `bs` samples, the last chunk
possibly shorter — the batching a non-shuffling `DataLoader` performs. -/
def chunks (bs : ℕ) (l : List Sample) : List (List Sample) :=
  if h : bs = 0 ∨ l = [] then []
  else l.take bs :: chunks bs (l.drop bs)
termination_by l.length
decreasing_by
  push_neg at h
  have hl : l.length ≠ 0 := fun hn => h.2 (List.length_eq_zero.mp hn)
  simp only [List.length_drop]
  omega

/-- The batches a `DataLoader` over dataset `ds` with batch size `bs` yields
(in dataset order, i.e. without shuffling). -/
def mkBatches (bs : ℕ) (ds : List Sample) : List Batch :=
  (chunks bs ds).map fun c => ⟨c.map Prod.fst, c.map Prod.snd⟩

/-- The model after training over a list of batches. -/
def trainEndModel (fw : Framework) (lr : ℚ) : List Batch → Model → Model
  | [], m => m
  | b :: bs, m => trainEndModel fw lr bs (trainStep fw lr m b).1

/-- Spec-side characterization (modelled from the spec's words): `y` is the
index of the maximum predicted score, with ties broken by taking the first
(lowest) index among exactly tied maximum scores — i.e. `y` is in range,
every score is at most the score at `y`, and every earlier score is
strictly below it. -/
def FirstMaxAt (l : List ℚ) (y : ℕ) : Prop :=
  y < l.length ∧ (∀ j, j < l.length → l.getD j 0 ≤ l.getD y 0) ∧
    (∀ j, j < y → l.getD j 0 < l.getD y 0)

/-- Is an output event the final best-score line? -/
def isBestEvent : OutputEvent → Bool
  | OutputEvent.bestScore _ => true
  | OutputEvent.progress _ _ _ _ => false

/-- A framework whose model output always makes class 0 the argmax, with 3
classes: every sample's score vector is `[1, 0, 0]`. -/
def fwAlways0 : Framework :=
  { forward := fun _ inputs => inputs.map fun _ => [1, 0, 0]
    loss := fun _ _ => 0
    grad := fun _ _ => [] }

/-- A validation set of 10 samples with true labels
`[0,0,0,1,1,1,2,2,2,2]`, loaded as a single batch. -/
def valAlways0 : List Batch :=
  [⟨[[], [], [], [], [], [], [], [], [], []], [0, 0, 0, 1, 1, 1, 2, 2, 2, 2]⟩]

def modelAlways0 : Model := ⟨[], [], false⟩

/-- A concrete framework for exercising the training loop: constant loss
`1`, gradient `1` for every parameter. -/
def fwGrad1 : Framework :=
  { forward := fun _ inputs => inputs.map fun _ => [1]
    loss := fun _ _ => 1
    grad := fun ps _ => ps.map fun _ => 1 }

/-- A single batch with one sample of label `0`. -/
def batch1 : Batch := ⟨[[]], [0]⟩

/-- A one-parameter model. -/
def modelW : Model := ⟨[2], [0], false⟩

/-- A dataset of eight trivial samples (two batches of four at batch size
four). -/
def dsEight : List Sample :=
  [([], 0), ([], 0), ([], 0), ([], 0), ([], 0), ([], 0), ([], 0), ([], 0)]

/-- A one-batch-each configuration. -/
def cfgTiny : Config := ⟨[batch1], [batch1], fwGrad1, learningRate⟩

/-- A framework engineered so that five epochs of the loop see validation
accuracies `[10, 40, 25, 60, 55]`: every SGD step bumps the single
parameter by one (gradient `-200` at learning rate `1/200`), and the number
of validation samples classified as class `0` depends on the parameter's
value. -/
def fw5 : Framework :=
  { forward := fun ps inputs => inputs.map fun v =>
      if v.headD 0 <
        (if ps.headD 0 = 1 then 2 else if ps.headD 0 = 2 then 8 else
          if ps.headD 0 = 3 then 5 else if ps.headD 0 = 4 then 12 else
            if ps.headD 0 = 5 then 11 else 0)
      then [1, 0] else [0, 1]
    loss := fun _ _ => 0
    grad := fun _ _ => [-200] }

/-- Twenty validation samples whose single feature is their own index, all
labelled `0`, in one batch. -/
def valData5 : List Batch :=
  [⟨[[0], [1], [2], [3], [4], [5], [6], [7], [8], [9], [10], [11], [12], [13], [14],
      [15], [16], [17], [18], [19]],
    [0, 0, 0, 0, 0, 0, 0, 0, 0, 0, 0, 0, 0, 0, 0, 0, 0, 0, 0, 0]⟩]

def cfg5 : Config := ⟨[⟨[[0]], [0]⟩], valData5, fw5, learningRate⟩

def model5 : Model := ⟨[0], [0], false⟩

theorem foldl_trainStep (fw : Framework) (lr : ℚ) :
    ∀ (dl : List Batch) (m : Model) (r : ℚ),
      dl.foldl (fun (acc : Model × ℚ) b =>
          ((trainStep fw lr acc.1 b).1, acc.2 + (trainStep fw lr acc.1 b).2)) (m, r)
        = (trainEndModel fw lr dl m, r + (trainLossTrace fw lr dl m).sum) := by
  intro dl
  induction dl with
  | nil => intro m r; simp [trainEndModel, trainLossTrace]
  | cons b bs ih =>
      intro m r
      simp only [List.foldl_cons, trainEndModel, trainLossTrace, List.sum_cons, ih, add_assoc]

/-- `train` in closed form: the final model and the mean of the per-batch
loss trace. -/
theorem train_eq (dl : List Batch) (m : Model) (fw : Framework) (lr : ℚ) :
    train dl m fw lr =
      if dl.length = 0 then none
      else some (trainEndModel fw lr dl { m with training := true },
        (trainLossTrace fw lr dl { m with training := true }).sum / (dl.length : ℚ)) := by
  unfold train
  simp only [foldl_trainStep, zero_add]

theorem foldl_pairSum {α : Type} (f g : α → ℚ) :
    ∀ (l : List α) (a c : ℚ),
      l.foldl (fun (acc : ℚ × ℚ) b => (acc.1 + f b, acc.2 + g b)) (a, c)
        = (a + (l.map f).sum, c + (l.map g).sum) := by
  intro l
  induction l with
  | nil => intro a c; simp
  | cons x xs ih => intro a c; simp [ih, add_assoc]

/-- `test` in closed form: the mode flag flipped to eval, the accuracy as
`correct / size * 100`, and the mean per-batch loss — all computed from the
unchanged parameters. -/
theorem test_eq (dl : List Batch) (m : Model) (fw : Framework) :
    test dl m fw =
      if dl.length = 0 ∨ (dl.map fun b => b.labels.length).sum = 0 then none
      else some ({ m with training := false },
        (dl.map fun b => countCorrect (fw.forward m.params b.inputs) b.labels).sum
          / ((dl.map fun b => b.labels.length).sum : ℚ) * 100,
        (dl.map fun b => fw.loss (fw.forward m.params b.inputs) b.labels).sum
          / (dl.length : ℚ)) := by
  unfold test
  simp only [foldl_pairSum, zero_add, Nat.cast_list_sum, List.map_map]
  rfl

theorem chunks_nil (bs : ℕ) : chunks bs [] = [] := by
  rw [chunks]; simp

theorem chunks_cons (bs : ℕ) (hbs : 0 < bs) (l : List Sample) (hl : l ≠ []) :
    chunks bs l = l.take bs :: chunks bs (l.drop bs) := by
  rw [chunks]
  have : ¬(bs = 0 ∨ l = []) := by
    push_neg
    exact ⟨Nat.pos_iff_ne_zero.mp hbs, hl⟩
  simp [this]

theorem numBatchesOf_zero (bs : ℕ) (hbs : 0 < bs) : numBatchesOf 0 bs = 0 := by
  unfold numBatchesOf
  exact Nat.div_eq_of_lt (by omega)

theorem numBatchesOf_succ (n bs : ℕ) (hbs : 0 < bs) (hn : 0 < n) :
    numBatchesOf n bs = numBatchesOf (n - bs) bs + 1 := by
  unfold numBatchesOf
  rcases le_or_lt n bs with h | h
  · have h1 : n - bs = 0 := by omega
    have e : n + bs - 1 = (n - 1) + bs := by omega
    rw [h1, e, Nat.add_div_right _ hbs]
    have e1 : (n - 1) / bs = 0 := Nat.div_eq_of_lt (by omega)
    have e2 : (0 + bs - 1) / bs = 0 := Nat.div_eq_of_lt (by omega)
    omega
  · have e : n + bs - 1 = (n - bs + bs - 1) + bs := by omega
    rw [e, Nat.add_div_right _ hbs]

/-- With `drop_last` at its default, the loader yields `ceil(size / bs)`
batches. -/
theorem chunks_length (bs : ℕ) (hbs : 0 < bs) (l : List Sample) :
    (chunks bs l).length = numBatchesOf l.length bs := by
  have main : ∀ (n : ℕ) (l : List Sample), l.length ≤ n →
      (chunks bs l).length = numBatchesOf l.length bs := by
    intro n
    induction n with
    | zero =>
        intro l hl
        have : l = [] := List.length_eq_zero.mp (Nat.le_zero.mp hl)
        subst this
        simp [chunks_nil, numBatchesOf_zero bs hbs]
    | succ n ih =>
        intro l hl
        by_cases hnil : l = []
        · subst hnil
          simp [chunks_nil, numBatchesOf_zero bs hbs]
        · have hlen : 0 < l.length := List.length_pos.mpr hnil
          rw [chunks_cons bs hbs l hnil]
          have hd : (l.drop bs).length = l.length - bs := List.length_drop bs l
          have ihd := ih (l.drop bs) (by omega)
          simp only [List.length_cons, ihd, hd]
          rw [numBatchesOf_succ l.length bs hbs hlen]
  exact main l.length l le_rfl

theorem mkBatches_length (bs : ℕ) (hbs : 0 < bs) (ds : List Sample) :
    (mkBatches bs ds).length = numBatchesOf ds.length bs := by
  unfold mkBatches
  rw [List.length_map, chunks_length bs hbs]

/-- One epoch-loop iteration in closed form: run `epochMetrics` on the
current model, append the epoch's record to the histories, emit a progress
line iff `epoch % 5 = 0`, and fold the accuracy into `best_score`. -/
theorem epochBody_eq (cfg : Config) (e : ℕ) (s : LoopState) :
    epochBody cfg e s = (epochMetrics cfg s.model).map fun tm =>
      { model := tm.2
        best_score := max s.best_score tm.1.2.2
        train_losses := s.train_losses ++ [tm.1.1]
        val_losses := s.val_losses ++ [tm.1.2.1]
        output := s.output ++
          (if e % 5 = 0 then [OutputEvent.progress (e + 1) tm.1.1 tm.1.2.1 tm.1.2.2]
           else []) } := by
  unfold epochBody epochMetrics
  cases htr : train cfg.trainData s.model cfg.fw cfg.lr with
  | none => rfl
  | some p =>
      obtain ⟨m1, tl⟩ := p
      cases hte : test cfg.valData m1 cfg.fw with
      | none => simp [hte]
      | some q =>
          obtain ⟨m2, vc, vl⟩ := q
          by_cases h5 : e % 5 = 0 <;> simp [h5, hte]

/-- The epoch loop in closed form, over the whole metrics trace. -/
theorem runFrom_eq (cfg : Config) :
    ∀ (n e : ℕ) (s : LoopState),
      runFrom cfg e n s = (metricsTrace cfg n s.model).map fun r =>
        { model := r.2
          best_score := (r.1.map fun t => t.2.2).foldl max s.best_score
          train_losses := s.train_losses ++ r.1.map fun t => t.1
          val_losses := s.val_losses ++ r.1.map fun t => t.2.1
          output := s.output ++ progressEvents e r.1 } := by
  intro n
  induction n with
  | zero =>
      intro e s
      simp [runFrom, metricsTrace, progressEvents]
  | succ n ih =>
      intro e s
      show (epochBody cfg e s).bind (runFrom cfg (e + 1) n) = _
      rw [epochBody_eq]
      show _ = ((epochMetrics cfg s.model).bind fun tm =>
        (metricsTrace cfg n tm.2).map fun r => (tm.1 :: r.1, r.2)).map _
      cases hm : epochMetrics cfg s.model with
      | none => rfl
      | some tm =>
          obtain ⟨t, m1⟩ := tm
          simp only [Option.map_some', Option.bind_some, Option.some_bind]
          rw [ih]
          cases hmt : metricsTrace cfg n m1 with
          | none => rfl
          | some r =>
              obtain ⟨ts, m2⟩ := r
              simp [progressEvents, List.append_assoc, List.foldl_cons]

/-- Running `a + b` epochs is running `a`, then `b` more. -/
theorem runFrom_add (cfg : Config) :
    ∀ (a b e : ℕ) (s : LoopState),
      runFrom cfg e (a + b) s = (runFrom cfg e a s).bind (runFrom cfg (e + a) b) := by
  intro a
  induction a with
  | zero =>
      intro b e s
      simp [runFrom]
  | succ a ih =>
      intro b e s
      have h1 : a + 1 + b = (a + b) + 1 := by omega
      rw [h1]
      show (epochBody cfg e s).bind (runFrom cfg (e + 1) (a + b))
        = ((epochBody cfg e s).bind (runFrom cfg (e + 1) a)).bind (runFrom cfg (e + (a + 1)) b)
      cases epochBody cfg e s with
      | none => rfl
      | some s1 =>
          simp only [Option.some_bind]
          rw [ih]
          have h2 : e + 1 + a = e + (a + 1) := by omega
          rw [h2]

theorem le_foldl_max (l : List ℚ) : ∀ b : ℚ, b ≤ l.foldl max b := by
  induction l with
  | nil => intro b; simp
  | cons x xs ih => intro b; exact le_trans (le_max_left b x) (ih (max b x))

theorem metricsTrace_length (cfg : Config) :
    ∀ (n : ℕ) (m : Model) (ts : List (ℚ × ℚ × ℚ)) (m' : Model),
      metricsTrace cfg n m = some (ts, m') → ts.length = n := by
  intro n
  induction n with
  | zero =>
      intro m ts m' h
      simp only [metricsTrace, Option.some.injEq] at h
      obtain ⟨h1, _⟩ := Prod.mk.inj h
      rw [← h1]
      rfl
  | succ n ih =>
      intro m ts m' h
      rw [metricsTrace] at h
      cases hm : epochMetrics cfg m with
      | none => rw [hm] at h; exact absurd h (by simp)
      | some tm =>
          rw [hm, Option.some_bind'] at h
          cases hmt : metricsTrace cfg n tm.2 with
          | none => rw [hmt] at h; exact absurd h (by simp)
          | some r =>
              rw [hmt, Option.map_some'] at h
              obtain ⟨h1, _⟩ := Prod.mk.inj (Option.some.inj h)
              rw [← h1, List.length_cons, ih tm.2 r.1 r.2 hmt]

theorem trainLossTrace_length (fw : Framework) (lr : ℚ) :
    ∀ (bs : List Batch) (m : Model), (trainLossTrace fw lr bs m).length = bs.length := by
  intro bs
  induction bs with
  | nil => intro m; rfl
  | cons b t ih => intro m; simp [trainLossTrace, ih]

/-- **C1**: for every run of the epoch loop, `best_score` is monotone
non-decreasing — after any prefix of `k ≤ N` epochs its value is at most its
final value, hence the value after epoch `i` is at least the value after
epoch `i-1` — and, starting from `0`, the final `best_score` equals the
maximum of `0` and all per-epoch validation accuracies (the fold of `max`
over the accuracy trace). -/
theorem best_score_monotone_and_final (cfg : Config) (m : Model) (N : ℕ) (s' : LoopState)
    (h : runEpochs cfg m N = some s') :
    (∀ k sk, k ≤ N → runEpochs cfg m k = some sk → sk.best_score ≤ s'.best_score) ∧
    (∀ ts m', metricsTrace cfg N m = some (ts, m') →
      s'.best_score = (ts.map fun t => t.2.2).foldl max 0) := by
  constructor
  · intro k sk hk hsk
    have hNk : k + (N - k) = N := by omega
    have hsplit := runFrom_add cfg k (N - k) 0 (initState m)
    rw [hNk] at hsplit
    unfold runEpochs at h hsk
    rw [hsplit, hsk, Option.some_bind'] at h
    rw [runFrom_eq] at h
    cases hmt : metricsTrace cfg (N - k) sk.model with
    | none => rw [hmt] at h; exact absurd h (by simp)
    | some r =>
        rw [hmt, Option.map_some'] at h
        have hx := Option.some.inj h
        have hb : s'.best_score = (r.1.map fun t => t.2.2).foldl max sk.best_score := by
          rw [← hx]
        rw [hb]
        exact le_foldl_max _ _
  · intro ts m' hmt
    unfold runEpochs at h
    rw [runFrom_eq] at h
    have hm0 : (initState m).model = m := rfl
    rw [hm0, hmt, Option.map_some'] at h
    have hx := Option.some.inj h
    rw [← hx]
    rfl

/-- **C5**: a successful run of the epoch loop over the configured number of
epochs `N` terminates with histories of length exactly `N` — each completed
epoch appended exactly one entry to `train_losses` and one to `val_losses`,
in epoch order — and no entry is ever mutated after being appended: the
histories after any prefix of `k ≤ N` epochs are exactly the first `k`
entries of the final histories.  Moreover each epoch's training pass
produces exactly one per-batch loss for every batch of the training set
(every batch visited exactly once per pass). -/
theorem epoch_loop_histories (cfg : Config) (m : Model) (N : ℕ) (s' : LoopState)
    (h : runEpochs cfg m N = some s') :
    (s'.train_losses.length = N ∧ s'.val_losses.length = N) ∧
    (∀ k sk, k ≤ N → runEpochs cfg m k = some sk →
      sk.train_losses = s'.train_losses.take k ∧ sk.val_losses = s'.val_losses.take k) ∧
    (∀ mm : Model, (trainLossTrace cfg.fw cfg.lr cfg.trainData mm).length
      = cfg.trainData.length) := by
  have lengths : ∀ (n : ℕ) (st : LoopState), runEpochs cfg m n = some st →
      st.train_losses.length = n ∧ st.val_losses.length = n := by
    intro n st hst
    unfold runEpochs at hst
    rw [runFrom_eq] at hst
    cases hmt : metricsTrace cfg n (initState m).model with
    | none => rw [hmt] at hst; exact absurd hst (by simp)
    | some r =>
        rw [hmt, Option.map_some'] at hst
        have hx := Option.some.inj hst
        have hlen := metricsTrace_length cfg n (initState m).model r.1 r.2 hmt
        constructor
        · rw [← hx]; simp [initState, hlen]
        · rw [← hx]; simp [initState, hlen]
  refine ⟨lengths N s' h, ?_, fun mm => trainLossTrace_length cfg.fw cfg.lr cfg.trainData mm⟩
  intro k sk hk hsk
  have hsk_len := lengths k sk hsk
  have hNk : k + (N - k) = N := by omega
  have hsplit := runFrom_add cfg k (N - k) 0 (initState m)
  rw [hNk] at hsplit
  unfold runEpochs at h hsk
  rw [hsplit, hsk, Option.some_bind'] at h
  rw [runFrom_eq] at h
  cases hmt : metricsTrace cfg (N - k) sk.model with
  | none => rw [hmt] at h; exact absurd h (by simp)
  | some r =>
      rw [hmt, Option.map_some'] at h
      have hx := Option.some.inj h
      constructor
      · have : s'.train_losses = sk.train_losses ++ r.1.map fun t => t.1 := by rw [← hx]
        rw [this, ← hsk_len.1, List.take_left]
      · have : s'.val_losses = sk.val_losses ++ r.1.map fun t => t.2.1 := by rw [← hx]
        rw [this, ← hsk_len.2, List.take_left]

/-- **C2**: for every epoch, `train` returns the arithmetic mean of the
per-batch losses accumulated over exactly `num_batches` batches, where the
dataloader (partial batches kept, `drop_last` default) yields
`ceil(size / batch_size)` batches. -/
theorem train_avg_loss_mean (bs : ℕ) (hbs : 0 < bs) (ds : List Sample) (hds : ds ≠ [])
    (m : Model) (fw : Framework) (lr : ℚ) :
    ∃ m' : Model,
      train (mkBatches bs ds) m fw lr
        = some (m', (trainLossTrace fw lr (mkBatches bs ds) { m with training := true }).sum
            / ((trainLossTrace fw lr (mkBatches bs ds) { m with training := true }).length : ℚ))
      ∧ (trainLossTrace fw lr (mkBatches bs ds) { m with training := true }).length
          = numBatchesOf ds.length bs := by
  have hlen : (mkBatches bs ds).length = numBatchesOf ds.length bs := mkBatches_length bs hbs ds
  have htl : (trainLossTrace fw lr (mkBatches bs ds) { m with training := true }).length
      = (mkBatches bs ds).length := trainLossTrace_length fw lr _ _
  have hne : (mkBatches bs ds).length ≠ 0 := by
    rw [hlen]
    unfold numBatchesOf
    have hds1 : 1 ≤ ds.length := List.length_pos.mpr hds
    have h1 : 1 ≤ (ds.length + bs - 1) / bs := (Nat.one_le_div_iff hbs).mpr (by omega)
    omega
  rw [train_eq, if_neg hne]
  exact ⟨_, by rw [htl], by rw [htl, hlen]⟩

/-- **C3**: evaluation is deterministic and mutation-free: a successful
`test` call leaves the parameters and gradient buffers untouched (the whole
pass runs without gradient tracking and no optimizer update occurs — only
the train/eval mode flag is set), and running `test` again on the same
validation set with the resulting model yields the identical accuracy and
the identical loss. -/
theorem test_deterministic_no_mutation (dl : List Batch) (m : Model) (fw : Framework)
    (m' : Model) (acc loss : ℚ) (h : test dl m fw = some (m', acc, loss)) :
    m'.params = m.params ∧ m'.grads = m.grads ∧ test dl m' fw = some (m', acc, loss) := by
  rw [test_eq] at h
  by_cases hc : dl.length = 0 ∨ (dl.map fun b => b.labels.length).sum = 0
  · rw [if_pos hc] at h
    exact absurd h (by simp)
  · rw [if_neg hc] at h
    have hx := Option.some.inj h
    obtain ⟨h1, h2⟩ := Prod.mk.inj hx
    obtain ⟨h2a, h2b⟩ := Prod.mk.inj h2
    refine ⟨by rw [← h1], by rw [← h1], ?_⟩
    rw [test_eq, if_neg hc, ← h1, ← h2a, ← h2b]

theorem getD_zipWith (f : ℚ → ℚ → ℚ) :
    ∀ (xs ys : List ℚ) (i : ℕ), i < xs.length → i < ys.length →
      (xs.zipWith f ys).getD i 0 = f (xs.getD i 0) (ys.getD i 0) := by
  intro xs
  induction xs with
  | nil => intro ys i h; simp at h
  | cons x xs ih =>
      intro ys i hx hy
      cases ys with
      | nil => simp at hy
      | cons y ys =>
          cases i with
          | zero => rfl
          | succ n =>
              simp only [List.zipWith_cons_cons, List.getD_cons_succ]
              exact ih ys n (by simpa using hx) (by simpa using hy)

theorem getD_map_zero (l : List ℚ) : ∀ i : ℕ, i < l.length →
    (l.map fun _ => (0 : ℚ)).getD i 0 = 0 := by
  induction l with
  | nil => intro i h; simp at h
  | cons x xs ih =>
      intro i hi
      cases i with
      | zero => rfl
      | succ n =>
          simp only [List.map_cons, List.getD_cons_succ]
          exact ih n (by simpa using hi)

theorem zipWith_zero_add : ∀ (zs g : List ℚ), zs.length = g.length →
    (zs.map fun _ => (0 : ℚ)).zipWith (· + ·) g = g := by
  intro zs
  induction zs with
  | nil =>
      intro g hg
      have : g = [] := List.length_eq_zero.mp hg.symm
      simp [this]
  | cons z zs ih =>
      intro g hg
      cases g with
      | nil => simp at hg
      | cons y ys =>
          simp only [List.map_cons, List.zipWith_cons_cons, zero_add]
          rw [ih ys (by simpa using hg)]

/-- **C4**: the Training Step processes a batch in the notebook's order
(forward pass, loss, gradient reset, backward pass, one SGD update):
the returned scalar is the loss of the predictions computed with the
*pre-update* parameters; the previously accumulated gradient buffers are
cleared before the new gradients accumulate, so the step's result does not
depend on their previous contents; after the step the gradient buffers hold
exactly the batch gradient computed at the pre-update parameters; the new
parameters are exactly one SGD update; and whenever some in-range gradient
entry is non-zero (and the learning rate is non-zero), at least one
parameter has changed. -/
theorem trainStep_spec (fw : Framework) (lr : ℚ) (m : Model) (b : Batch) :
    (trainStep fw lr m b).2 = fw.loss (fw.forward m.params b.inputs) b.labels ∧
    (trainStep fw lr m b).1.params
      = sgdStep lr m.params ((m.grads.map fun _ => 0).zipWith (· + ·) (fw.grad m.params b)) ∧
    (∀ g' : List ℚ, g'.length = m.grads.length →
      trainStep fw lr { m with grads := g' } b = trainStep fw lr m b) ∧
    (m.grads.length = (fw.grad m.params b).length →
      (trainStep fw lr m b).1.grads = fw.grad m.params b) ∧
    (∀ i : ℕ, lr ≠ 0 → i < m.params.length → i < m.grads.length →
      i < (fw.grad m.params b).length → (fw.grad m.params b).getD i 0 ≠ 0 →
      (trainStep fw lr m b).1.params ≠ m.params) := by
  refine ⟨rfl, rfl, ?_, ?_, ?_⟩
  · intro g' hg'
    have hz : (g'.map fun _ => (0 : ℚ)) = m.grads.map fun _ => (0 : ℚ) := by
      rw [List.map_const', List.map_const', hg']
    obtain ⟨ps, gs, tr⟩ := m
    unfold trainStep
    dsimp only at hz ⊢
    rw [hz]
  · intro hlen
    show (m.grads.map fun _ => (0 : ℚ)).zipWith (· + ·) (fw.grad m.params b) = fw.grad m.params b
    exact zipWith_zero_add m.grads (fw.grad m.params b) (by simpa using hlen)
  · intro i hlr hip hig higr hgz heq
    have hzlen : ((m.grads.map fun _ => (0 : ℚ)).zipWith (· + ·) (fw.grad m.params b)).length
        = min m.grads.length (fw.grad m.params b).length := by
      simp [List.length_zipWith]
    have hiz : i < ((m.grads.map fun _ => (0 : ℚ)).zipWith (· + ·) (fw.grad m.params b)).length := by
      rw [hzlen]; omega
    have hz : ((m.grads.map fun _ => (0 : ℚ)).zipWith (· + ·) (fw.grad m.params b)).getD i 0
        = (fw.grad m.params b).getD i 0 := by
      rw [getD_zipWith (· + ·) _ _ i (by simpa using hig) higr,
        getD_map_zero m.grads i hig, zero_add]
    have hnew : (trainStep fw lr m b).1.params.getD i 0
        = m.params.getD i 0 - lr * (fw.grad m.params b).getD i 0 := by
      show (sgdStep lr m.params _).getD i 0 = _
      rw [sgdStep, getD_zipWith _ _ _ i hip hiz, hz]
    have : (trainStep fw lr m b).1.params.getD i 0 = m.params.getD i 0 := by rw [heq]
    rw [hnew] at this
    have : lr * (fw.grad m.params b).getD i 0 = 0 := by linarith
    exact absurd this (mul_ne_zero hlr hgz)

theorem countCorrect_nonneg (preds : List (List ℚ)) (labels : List ℕ) :
    0 ≤ countCorrect preds labels := by
  unfold countCorrect
  apply List.sum_nonneg
  intro x hx
  obtain ⟨py, _, hpy⟩ := List.mem_map.mp hx
  rw [← hpy]
  by_cases hc : argmaxIdx py.1 = py.2 <;> simp [hc]

theorem countCorrect_le (preds : List (List ℚ)) :
    ∀ labels : List ℕ, countCorrect preds labels ≤ (labels.length : ℚ) := by
  unfold countCorrect
  induction preds with
  | nil => intro labels; simp
  | cons p ps ih =>
      intro labels
      cases labels with
      | nil => simp
      | cons y ys =>
          simp only [List.zip_cons_cons, List.map_cons, List.sum_cons, List.length_cons]
          have h1 : (if argmaxIdx p = y then (1 : ℚ) else 0) ≤ 1 := by
            by_cases hc : argmaxIdx p = y <;> simp [hc]
          have h2 := ih ys
          push_cast
          linarith

/-- **C6**: for every validation set on which `test` succeeds, the returned
validation accuracy `val_accuracy_pct = 100 * num_correct / num_val_samples`
lies in the closed range `[0, 100]`. -/
theorem val_accuracy_in_range (dl : List Batch) (m : Model) (fw : Framework)
    (m' : Model) (acc loss : ℚ) (h : test dl m fw = some (m', acc, loss)) :
    0 ≤ acc ∧ acc ≤ 100 := by
  rw [test_eq] at h
  by_cases hc : dl.length = 0 ∨ (dl.map fun b => b.labels.length).sum = 0
  · rw [if_pos hc] at h
    exact absurd h (by simp)
  · rw [if_neg hc] at h
    have hx := Option.some.inj h
    obtain ⟨_, h2⟩ := Prod.mk.inj hx
    obtain ⟨h2a, _⟩ := Prod.mk.inj h2
    push_neg at hc
    have hS : (0 : ℚ) < (dl.map fun b => ((b.labels.length : ℕ) : ℚ)).sum := by
      have hcast : (Nat.cast ((dl.map fun b => b.labels.length).sum) : ℚ)
          = (dl.map fun b => ((b.labels.length : ℕ) : ℚ)).sum := by
        rw [Nat.cast_list_sum, List.map_map]
        rfl
      rw [← hcast]
      exact_mod_cast Nat.pos_of_ne_zero hc.2
    have hC0 : (0 : ℚ) ≤ (dl.map fun b => countCorrect (fw.forward m.params b.inputs) b.labels).sum := by
      apply List.sum_nonneg
      intro x hx
      obtain ⟨bb, _, hbb⟩ := List.mem_map.mp hx
      rw [← hbb]
      exact countCorrect_nonneg _ _
    have hCS : (dl.map fun b => countCorrect (fw.forward m.params b.inputs) b.labels).sum
        ≤ (dl.map fun b => ((b.labels.length : ℕ) : ℚ)).sum := by
      apply List.sum_le_sum
      intro bb _
      exact countCorrect_le _ bb.labels
    rw [← h2a]
    constructor
    · positivity
    · have hdiv : (dl.map fun b => countCorrect (fw.forward m.params b.inputs) b.labels).sum
          / (dl.map fun b => ((b.labels.length : ℕ) : ℚ)).sum ≤ 1 :=
        (div_le_one hS).mpr hCS
      nlinarith

/-- **C10**: a dataloader yielding zero batches makes both `train` and
`test` fail with a division-by-zero error (modelled as `none`) when
computing the average loss (`test` additionally divides by the dataset
size); under the precondition that the loader yields at least one batch
(and, for `test`, the dataset is non-empty) both functions succeed, so the
error branch is unreachable. -/
theorem division_by_zero_on_empty_loader (m : Model) (fw : Framework) (lr : ℚ)
    (dl : List Batch) :
    train ([] : List Batch) m fw lr = none ∧
    test ([] : List Batch) m fw = none ∧
    (dl ≠ [] → ∃ r, train dl m fw lr = some r) ∧
    (dl ≠ [] → (dl.map fun b => b.labels.length).sum ≠ 0 → ∃ r, test dl m fw = some r) := by
  refine ⟨by rw [train_eq]; rfl, by rw [test_eq]; rfl, ?_, ?_⟩
  · intro hne
    rw [train_eq, if_neg (by simpa using hne)]
    exact ⟨_, rfl⟩
  · intro hne hsz
    rw [test_eq, if_neg ?_]
    · exact ⟨_, rfl⟩
    · push_neg
      exact ⟨by simpa using hne, hsz⟩

theorem argmaxAux_spec :
    ∀ (xs : List ℚ) (i bi : ℕ) (bv : ℚ),
      (argmaxAux xs i bi bv = bi ∧ ∀ k, k < xs.length → xs.getD k 0 ≤ bv) ∨
      (∃ k0, k0 < xs.length ∧ argmaxAux xs i bi bv = i + k0 ∧ bv < xs.getD k0 0 ∧
        (∀ j, j < k0 → xs.getD j 0 < xs.getD k0 0) ∧
        (∀ j, j < xs.length → xs.getD j 0 ≤ xs.getD k0 0)) := by
  intro xs
  induction xs with
  | nil =>
      intro i bi bv
      left
      exact ⟨rfl, fun k hk => absurd hk (by simp)⟩
  | cons x xs ih =>
      intro i bi bv
      by_cases hx : bv < x
      · have hstep : argmaxAux (x :: xs) i bi bv = argmaxAux xs (i + 1) i x := by
          simp [argmaxAux, hx]
        rcases ih (i + 1) i x with ⟨h1, h2⟩ | ⟨k0, hk0, hr, hgt, hfirst, hmax⟩
        · right
          refine ⟨0, by simp, ?_, by simpa using hx, ?_, ?_⟩
          · rw [hstep, h1]
            omega
          · intro j hj
            omega
          · intro j hj
            cases j with
            | zero => exact le_refl _
            | succ n =>
                simp only [List.getD_cons_succ, List.getD_cons_zero]
                exact h2 n (by simpa using hj)
        · right
          refine ⟨k0 + 1, by simpa using hk0, ?_, ?_, ?_, ?_⟩
          · rw [hstep, hr]
            omega
          · simp only [List.getD_cons_succ]
            exact lt_trans hx hgt
          · intro j hj
            cases j with
            | zero =>
                simp only [List.getD_cons_zero, List.getD_cons_succ]
                exact hgt
            | succ n =>
                simp only [List.getD_cons_succ]
                exact hfirst n (by omega)
          · intro j hj
            cases j with
            | zero =>
                simp only [List.getD_cons_zero, List.getD_cons_succ]
                exact le_of_lt hgt
            | succ n =>
                simp only [List.getD_cons_succ]
                exact hmax n (by simpa using hj)
      · have hstep : argmaxAux (x :: xs) i bi bv = argmaxAux xs (i + 1) bi bv := by
          simp [argmaxAux, hx]
        rcases ih (i + 1) bi bv with ⟨h1, h2⟩ | ⟨k0, hk0, hr, hgt, hfirst, hmax⟩
        · left
          refine ⟨by rw [hstep, h1], ?_⟩
          intro k hk
          cases k with
          | zero => simpa using le_of_not_lt hx
          | succ n =>
              simp only [List.getD_cons_succ]
              exact h2 n (by simpa using hk)
        · right
          refine ⟨k0 + 1, by simpa using hk0, ?_, ?_, ?_, ?_⟩
          · rw [hstep, hr]
            omega
          · simp only [List.getD_cons_succ]
            exact hgt
          · intro j hj
            cases j with
            | zero =>
                simp only [List.getD_cons_zero, List.getD_cons_succ]
                exact lt_of_le_of_lt (le_of_not_lt hx) hgt
            | succ n =>
                simp only [List.getD_cons_succ]
                exact hfirst n (by omega)
          · intro j hj
            cases j with
            | zero =>
                simp only [List.getD_cons_zero, List.getD_cons_succ]
                exact le_of_lt (lt_of_le_of_lt (le_of_not_lt hx) hgt)
            | succ n =>
                simp only [List.getD_cons_succ]
                exact hmax n (by simpa using hj)

theorem argmaxIdx_firstMaxAt (l : List ℚ) (hl : l ≠ []) : FirstMaxAt l (argmaxIdx l) := by
  cases l with
  | nil => exact absurd rfl hl
  | cons x xs =>
      show FirstMaxAt (x :: xs) (argmaxAux xs 1 0 x)
      rcases argmaxAux_spec xs 1 0 x with ⟨h1, h2⟩ | ⟨k0, hk0, hr, hgt, hfirst, hmax⟩
      · rw [h1]
        refine ⟨by simp, ?_, ?_⟩
        · intro j hj
          cases j with
          | zero => exact le_refl _
          | succ n =>
              simp only [List.getD_cons_succ, List.getD_cons_zero]
              exact h2 n (by simpa using hj)
        · intro j hj
          omega
      · rw [hr]
        refine ⟨by simp only [List.length_cons]; omega, ?_, ?_⟩
        · intro j hj
          have h1k : 1 + k0 = k0 + 1 := by omega
          rw [h1k]
          cases j with
          | zero =>
              simp only [List.getD_cons_zero, List.getD_cons_succ]
              exact le_of_lt hgt
          | succ n =>
              simp only [List.getD_cons_succ]
              exact hmax n (by simpa using hj)
        · intro j hj
          have h1k : 1 + k0 = k0 + 1 := by omega
          rw [h1k] at hj ⊢
          cases j with
          | zero =>
              simp only [List.getD_cons_zero, List.getD_cons_succ]
              exact hgt
          | succ n =>
              simp only [List.getD_cons_succ]
              exact hfirst n (by omega)

theorem firstMaxAt_unique (l : List ℚ) (y y' : ℕ)
    (h : FirstMaxAt l y) (h' : FirstMaxAt l y') : y = y' := by
  by_contra hne
  rcases Nat.lt_or_ge y y' with hlt | hge
  · have ha := h'.2.2 y hlt
    have hb := h.2.1 y' h'.1
    linarith
  · have hlt : y' < y := by omega
    have ha := h.2.2 y' hlt
    have hb := h'.2.1 y h.1
    linarith

theorem countCorrect_eq_countP (preds : List (List ℚ)) :
    ∀ labels : List ℕ, countCorrect preds labels
      = (((preds.zip labels).countP fun py => decide (argmaxIdx py.1 = py.2) : ℕ) : ℚ) := by
  unfold countCorrect
  induction preds with
  | nil => intro labels; simp
  | cons p ps ih =>
      intro labels
      cases labels with
      | nil => simp
      | cons y ys =>
          simp only [List.zip_cons_cons, List.map_cons, List.sum_cons, List.countP_cons]
          rw [ih ys]
          by_cases hc : argmaxIdx p = y
          · simp only [hc, if_pos rfl]
            simp only [decide_eq_true_eq, if_pos trivial]
            push_cast
            ring
          · simp [hc]

/-- **C7**: in the evaluation step, a sample contributes to the correct
count if and only if the index of the maximum predicted score equals the
true label index, where that index is characterized as the first (lowest)
index among exactly tied maximum scores; the accumulated count is exactly
the number of `(prediction, label)` pairs satisfying this. -/
theorem correct_iff_first_max (preds : List (List ℚ)) (labels : List ℕ)
    (p : List ℚ) (y : ℕ) (hp : p ≠ []) :
    ((argmaxIdx p = y) ↔ FirstMaxAt p y) ∧
    countCorrect preds labels
      = (((preds.zip labels).countP fun py => decide (argmaxIdx py.1 = py.2) : ℕ) : ℚ) := by
  constructor
  · constructor
    · rintro rfl
      exact argmaxIdx_firstMaxAt p hp
    · intro h
      exact firstMaxAt_unique p (argmaxIdx p) y (argmaxIdx_firstMaxAt p hp) h
  · exact countCorrect_eq_countP preds labels

theorem progressEvents_no_best :
    ∀ (ts : List (ℚ × ℚ × ℚ)) (e : ℕ) (ev : OutputEvent),
      ev ∈ progressEvents e ts → isBestEvent ev = false := by
  intro ts
  induction ts with
  | nil =>
      intro e ev h
      simp [progressEvents] at h
  | cons t ts ih =>
      intro e ev h
      simp only [progressEvents, List.mem_append] at h
      rcases h with h | h
      · by_cases h5 : e % 5 = 0
        · rw [if_pos h5] at h
          simp only [List.mem_singleton] at h
          rw [h]
          rfl
        · rw [if_neg h5] at h
          simp at h
      · exact ih (e + 1) ev h

theorem mem_progressEvents :
    ∀ (ts : List (ℚ × ℚ × ℚ)) (e : ℕ) (ev : OutputEvent),
      ev ∈ progressEvents e ts ↔ ∃ k, k < ts.length ∧ (e + k) % 5 = 0 ∧
        ev = OutputEvent.progress (e + k + 1) (ts.getD k (0, 0, 0)).1
          (ts.getD k (0, 0, 0)).2.1 (ts.getD k (0, 0, 0)).2.2 := by
  intro ts
  induction ts with
  | nil =>
      intro e ev
      simp [progressEvents]
  | cons t ts ih =>
      intro e ev
      simp only [progressEvents, List.mem_append]
      constructor
      · rintro (h | h)
        · by_cases h5 : e % 5 = 0
          · rw [if_pos h5] at h
            simp only [List.mem_singleton] at h
            exact ⟨0, by simp, by simpa using h5, by simpa using h⟩
          · rw [if_neg h5] at h
            simp at h
        · obtain ⟨k, hk, h5, hev⟩ := (ih (e + 1) ev).mp h
          refine ⟨k + 1, by simpa using hk, ?_, ?_⟩
          · have he : e + (k + 1) = (e + 1) + k := by omega
            rw [he]
            exact h5
          · have he : e + (k + 1) + 1 = (e + 1) + k + 1 := by omega
            rw [he]
            simpa [List.getD_cons_succ] using hev
      · rintro ⟨k, hk, h5, hev⟩
        cases k with
        | zero =>
            left
            rw [if_pos (by simpa using h5)]
            simp only [List.mem_singleton]
            simpa using hev
        | succ n =>
            right
            apply (ih (e + 1) ev).mpr
            refine ⟨n, by simpa using hk, ?_, ?_⟩
            · have he : (e + 1) + n = e + (n + 1) := by omega
              rw [he]
              exact h5
            · have he : (e + 1) + n + 1 = e + (n + 1) + 1 := by omega
              rw [he]
              simpa [List.getD_cons_succ] using hev

/-- **C9**: over a full run, the output consists of the progress lines
followed by exactly one final best-score line carrying the final
`best_score`; a progress line is printed for every fifth epoch (epoch
indices `e` with `e % 5 = 0`), carrying the 1-based epoch number and that
epoch's train loss, validation loss and validation accuracy; and every
progress line printed arises from such an epoch. -/
theorem progress_reporting (cfg : Config) (m : Model) (N : ℕ) (s' : LoopState)
    (ts : List (ℚ × ℚ × ℚ)) (m' : Model)
    (h : runLoop cfg m N = some s') (hmt : metricsTrace cfg N m = some (ts, m')) :
    s'.output = progressEvents 0 ts ++ [OutputEvent.bestScore s'.best_score] ∧
    s'.output.countP isBestEvent = 1 ∧
    (∀ e, e < N → e % 5 = 0 →
      OutputEvent.progress (e + 1) (ts.getD e (0, 0, 0)).1 (ts.getD e (0, 0, 0)).2.1
        (ts.getD e (0, 0, 0)).2.2 ∈ s'.output) ∧
    (∀ ev, ev ∈ progressEvents 0 ts → ∃ e, e < N ∧ e % 5 = 0 ∧
      ev = OutputEvent.progress (e + 1) (ts.getD e (0, 0, 0)).1 (ts.getD e (0, 0, 0)).2.1
        (ts.getD e (0, 0, 0)).2.2) := by
  have hN : ts.length = N := metricsTrace_length cfg N m ts m' hmt
  unfold runLoop at h
  cases hre : runEpochs cfg m N with
  | none =>
      rw [hre] at h
      exact absurd h (by simp)
  | some s0 =>
      rw [hre, Option.map_some'] at h
      have hs' := Option.some.inj h
      unfold runEpochs at hre
      rw [runFrom_eq] at hre
      have hm0 : (initState m).model = m := rfl
      rw [hm0, hmt, Option.map_some'] at hre
      have hs0 := Option.some.inj hre
      have hout : s'.output = progressEvents 0 ts ++ [OutputEvent.bestScore s'.best_score] := by
        rw [← hs', ← hs0]
        rfl
      refine ⟨hout, ?_, ?_, ?_⟩
      · rw [hout, List.countP_append]
        have hz : (progressEvents 0 ts).countP isBestEvent = 0 :=
          List.countP_eq_zero.mpr fun ev hev => by
            simp [progressEvents_no_best ts 0 ev hev]
        rw [hz]
        rfl
      · intro e heN he5
        rw [hout]
        apply List.mem_append_left
        apply (mem_progressEvents ts 0 _).mpr
        exact ⟨e, by omega, by simpa using he5, by simp⟩
      · intro ev hev
        obtain ⟨k, hk, h5, hev'⟩ := (mem_progressEvents ts 0 ev).mp hev
        exact ⟨k, by omega, by simpa using h5, by simpa using hev'⟩

/-- **C8**: on a validation set of 10 samples with 3 classes, a model whose
output always makes class 0 the argmax, and true labels
`[0,0,0,1,1,1,2,2,2,2]`, the `test` function returns
`val_accuracy_pct == 30.0`. -/
theorem test_always_class0 :
    test valAlways0 modelAlways0 fwAlways0
      = some ({ modelAlways0 with training := false }, 30, 0) := by
  rw [test_eq]
  norm_num [valAlways0, fwAlways0, modelAlways0, countCorrect, argmaxIdx, argmaxAux,
    List.replicate, List.zip_cons_cons, List.zip_nil_right]

/-- Witness for C7 at a concrete input with an exact tie: in `[3, 5, 5]`
the maximum `5` occurs at indices `1` and `2`, and the first one wins. -/
theorem correct_iff_first_max_witness :
    (([3, 5, 5] : List ℚ) ≠ []) ∧ argmaxIdx [3, 5, 5] = 1 ∧ FirstMaxAt [3, 5, 5] 1 := by
  have h := correct_iff_first_max ([] : List (List ℚ)) ([] : List ℕ) [3, 5, 5] 1 (by simp)
  have harg : argmaxIdx [3, 5, 5] = 1 := by
    norm_num [argmaxIdx, argmaxAux]
  exact ⟨by simp, harg, h.1.mp harg⟩

/-- Witness for C4 on a concrete one-parameter model with a non-zero
gradient: the gradient buffer ends up holding the batch gradient and the
parameter changes. -/
theorem trainStep_spec_witness :
    ((trainStep fwGrad1 learningRate modelW batch1).2
        = fwGrad1.loss (fwGrad1.forward modelW.params batch1.inputs) batch1.labels) ∧
    (modelW.grads.length = (fwGrad1.grad modelW.params batch1).length ∧
      (trainStep fwGrad1 learningRate modelW batch1).1.grads
        = fwGrad1.grad modelW.params batch1) ∧
    (learningRate ≠ 0 ∧ (0 : ℕ) < modelW.params.length ∧ (0 : ℕ) < modelW.grads.length ∧
      (0 : ℕ) < (fwGrad1.grad modelW.params batch1).length ∧
      (fwGrad1.grad modelW.params batch1).getD 0 0 ≠ 0 ∧
      (trainStep fwGrad1 learningRate modelW batch1).1.params ≠ modelW.params) := by
  have h := trainStep_spec fwGrad1 learningRate modelW batch1
  have hlr : learningRate ≠ 0 := by norm_num [learningRate]
  have hlen : modelW.grads.length = (fwGrad1.grad modelW.params batch1).length := by
    norm_num [modelW, fwGrad1]
  have hp : (0 : ℕ) < modelW.params.length := by norm_num [modelW]
  have hg : (0 : ℕ) < modelW.grads.length := by norm_num [modelW]
  have hgr : (0 : ℕ) < (fwGrad1.grad modelW.params batch1).length := by
    norm_num [modelW, fwGrad1]
  have hgz : (fwGrad1.grad modelW.params batch1).getD 0 0 ≠ 0 := by
    norm_num [modelW, fwGrad1]
  exact ⟨h.1, ⟨hlen, h.2.2.2.1 hlen⟩, hlr, hp, hg, hgr, hgz,
    h.2.2.2.2 0 hlr hp hg hgr hgz⟩

/-- Witness for C10: the empty loader fails, a one-batch loader with a
non-empty dataset succeeds. -/
theorem division_by_zero_witness :
    train ([] : List Batch) modelW fwGrad1 learningRate = none ∧
    test ([] : List Batch) modelW fwGrad1 = none ∧
    ([batch1] ≠ ([] : List Batch)) ∧
    (([batch1].map fun b => b.labels.length).sum ≠ 0) ∧
    (∃ r, train [batch1] modelW fwGrad1 learningRate = some r) ∧
    (∃ r, test [batch1] modelW fwGrad1 = some r) := by
  have h := division_by_zero_on_empty_loader modelW fwGrad1 learningRate [batch1]
  exact ⟨h.1, h.2.1, by simp, by norm_num [batch1], h.2.2.1 (by simp),
    h.2.2.2 (by simp) (by norm_num [batch1])⟩

/-- Witness for C3 on the concrete always-class-0 evaluation: running `test`
twice yields the identical accuracy and loss and parameters are untouched. -/
theorem test_deterministic_no_mutation_witness :
    ∃ m' acc loss, test valAlways0 modelAlways0 fwAlways0 = some (m', acc, loss) ∧
      m'.params = modelAlways0.params ∧ m'.grads = modelAlways0.grads ∧
      test valAlways0 m' fwAlways0 = some (m', acc, loss) := by
  have hev : test valAlways0 modelAlways0 fwAlways0
      = some ({ modelAlways0 with training := false }, 30, 0) := by
    rw [test_eq]
    norm_num [valAlways0, fwAlways0, modelAlways0, countCorrect, argmaxIdx, argmaxAux,
      List.replicate, List.zip_cons_cons, List.zip_nil_right]
  obtain ⟨h1, h2, h3⟩ :=
    test_deterministic_no_mutation valAlways0 modelAlways0 fwAlways0 _ 30 0 hev
  exact ⟨_, 30, 0, hev, h1, h2, h3⟩

/-- Witness for C6 on the concrete always-class-0 evaluation: the returned
accuracy `30` lies in `[0, 100]`. -/
theorem val_accuracy_in_range_witness :
    (test valAlways0 modelAlways0 fwAlways0
      = some ({ modelAlways0 with training := false }, 30, 0)) ∧
    0 ≤ (30 : ℚ) ∧ (30 : ℚ) ≤ 100 := by
  have hev : test valAlways0 modelAlways0 fwAlways0
      = some ({ modelAlways0 with training := false }, 30, 0) := by
    rw [test_eq]
    norm_num [valAlways0, fwAlways0, modelAlways0, countCorrect, argmaxIdx, argmaxAux,
      List.replicate, List.zip_cons_cons, List.zip_nil_right]
  have h := val_accuracy_in_range valAlways0 modelAlways0 fwAlways0 _ 30 0 hev
  exact ⟨hev, h.1, h.2⟩

set_option maxRecDepth 4000 in
/-- Witness for C2: a training set of 8 trivial samples at batch size 4 is
2 batches; with the constant loss `1` the returned average train loss is
exactly `1`. -/
theorem train_avg_loss_mean_witness :
    ((0 : ℕ) < 4 ∧ dsEight ≠ []) ∧
    (∃ m' : Model,
      train (mkBatches 4 dsEight) modelW fwGrad1 learningRate
        = some (m', (trainLossTrace fwGrad1 learningRate (mkBatches 4 dsEight)
              { modelW with training := true }).sum
            / ((trainLossTrace fwGrad1 learningRate (mkBatches 4 dsEight)
              { modelW with training := true }).length : ℚ))
      ∧ (trainLossTrace fwGrad1 learningRate (mkBatches 4 dsEight)
          { modelW with training := true }).length = numBatchesOf dsEight.length 4) ∧
    train (mkBatches 4 dsEight) modelW fwGrad1 learningRate
      = some (⟨[199 / 100], [1], true⟩, 1) := by
  refine ⟨⟨by norm_num, by simp [dsEight]⟩,
    train_avg_loss_mean 4 (by norm_num) dsEight (by simp [dsEight]) modelW fwGrad1
      learningRate, ?_⟩
  have hmk : mkBatches 4 dsEight
      = [⟨[[], [], [], []], [0, 0, 0, 0]⟩, ⟨[[], [], [], []], [0, 0, 0, 0]⟩] := by
    rw [mkBatches, dsEight, chunks]
    norm_num
    rw [chunks]
    simp [chunks_nil]
  rw [train_eq, hmk]
  norm_num [trainEndModel, trainLossTrace, trainStep, sgdStep, fwGrad1, modelW,
    learningRate]

/-- Witness for C5: one epoch over the one-batch configuration appends one
entry to each history, and prefixes of the run are prefixes of the
histories. -/
theorem epoch_loop_histories_witness :
    ∃ s', runEpochs cfgTiny modelW 1 = some s' ∧
      s'.train_losses.length = 1 ∧ s'.val_losses.length = 1 ∧
      (∀ k sk, k ≤ 1 → runEpochs cfgTiny modelW k = some sk →
        sk.train_losses = s'.train_losses.take k ∧
        sk.val_losses = s'.val_losses.take k) := by
  have hrun : runEpochs cfgTiny modelW 1
      = some ⟨⟨[399 / 200], [1], false⟩, 100, [1], [1],
          [OutputEvent.progress 1 1 1 100]⟩ := by
    norm_num [runEpochs, runFrom, epochBody, initState, train, test, trainStep, sgdStep,
      cfgTiny, fwGrad1, modelW, batch1, countCorrect, argmaxIdx, argmaxAux, learningRate,
      List.zip_cons_cons, List.zip_nil_right]
  have h := epoch_loop_histories cfgTiny modelW 1 _ hrun
  exact ⟨_, hrun, h.1.1, h.1.2, h.2.1⟩

/-- Witness for C9: over one epoch of the one-batch configuration the
output is the epoch-0 progress line (epoch `0 % 5 = 0`) followed by exactly
one best-score line. -/
theorem progress_reporting_witness :
    ∃ s', runLoop cfgTiny modelW 1 = some s' ∧
      s'.output = progressEvents 0 [((1 : ℚ), (1 : ℚ), (100 : ℚ))]
        ++ [OutputEvent.bestScore s'.best_score] ∧
      s'.output.countP isBestEvent = 1 ∧
      OutputEvent.progress 1 1 1 100 ∈ s'.output := by
  have hmt : metricsTrace cfgTiny 1 modelW
      = some ([(1, 1, 100)], ⟨[399 / 200], [1], false⟩) := by
    norm_num [metricsTrace, epochMetrics, train, test, trainStep, sgdStep, cfgTiny,
      fwGrad1, modelW, batch1, countCorrect, argmaxIdx, argmaxAux, learningRate,
      List.zip_cons_cons, List.zip_nil_right]
  have hrun : runLoop cfgTiny modelW 1
      = some ⟨⟨[399 / 200], [1], false⟩, 100, [1], [1],
          [OutputEvent.progress 1 1 1 100, OutputEvent.bestScore 100]⟩ := by
    norm_num [runLoop, runEpochs, runFrom, epochBody, initState, train, test, trainStep,
      sgdStep, cfgTiny, fwGrad1, modelW, batch1, countCorrect, argmaxIdx, argmaxAux,
      learningRate, List.zip_cons_cons, List.zip_nil_right]
  have h := progress_reporting cfgTiny modelW 1 _ [(1, 1, 100)] ⟨[399 / 200], [1], false⟩
    hrun hmt
  refine ⟨_, hrun, h.1, h.2.1, ?_⟩
  exact h.2.2.1 0 (by norm_num) (by norm_num)

/-- Witness for C1: the spec's end-to-end scenario — five epochs with
validation accuracies `[10, 40, 25, 60, 55]`, best score starting at `0`,
final `best_score = 60 = max` of them all, monotone along the run. -/
theorem best_score_monotone_and_final_witness :
    ∃ s', runEpochs cfg5 model5 5 = some s' ∧
      (∀ k sk, k ≤ 5 → runEpochs cfg5 model5 k = some sk →
        sk.best_score ≤ s'.best_score) ∧
      s'.best_score = 60 ∧
      metricsTrace cfg5 5 model5
        = some ([(0, 0, 10), (0, 0, 40), (0, 0, 25), (0, 0, 60), (0, 0, 55)],
            ⟨[5], [-200], false⟩) ∧
      s'.best_score = ([(10 : ℚ), 40, 25, 60, 55]).foldl max 0 := by
  have hmt : metricsTrace cfg5 5 model5
      = some ([(0, 0, 10), (0, 0, 40), (0, 0, 25), (0, 0, 60), (0, 0, 55)],
          ⟨[5], [-200], false⟩) := by
    norm_num [metricsTrace, epochMetrics, train, test, trainStep, sgdStep, cfg5, fw5,
      valData5, model5, countCorrect, argmaxIdx, argmaxAux, learningRate,
      List.zip_cons_cons, List.zip_nil_right]
  have hrun : runEpochs cfg5 model5 5
      = some ⟨⟨[5], [-200], false⟩, 60, [0, 0, 0, 0, 0], [0, 0, 0, 0, 0],
          [OutputEvent.progress 1 0 0 10]⟩ := by
    rw [runEpochs, runFrom_eq]
    rw [show (initState model5).model = model5 from rfl, hmt, Option.map_some']
    norm_num [initState, progressEvents, max_def]
  have h := best_score_monotone_and_final cfg5 model5 5 _ hrun
  refine ⟨_, hrun, h.1, by norm_num, hmt, ?_⟩
  rw [h.2 _ _ hmt]
  norm_num

end DSC
